import Mathlib

/-!
Verification of the image-to-MZM conversion pipeline (`image2mzm.py`).

The source program converts a raster image to a tile-based binary layer:
it loads a 16-entry 6-bit palette (built-in or from a 48-byte file),
expands it to 8-bit, builds a 256-entry diffusion table by 16-fold
repetition, quantizes the resized image against that table (via the
external PIL collaborator), reduces each pixel cell to a (glyph, color)
pair by ranking the cell's 256-bin histogram, and serializes a 20-byte
header plus the flattened layer.

This file is a shallow embedding of that program.  Pure functions of the
source become Lean functions; Python exceptions (ZeroDivisionError,
IndexError, ValueError, struct.error) become `Option` results (`none`);
the external image decoding / resizing / quantization collaborators,
which the program treats as opaque (PIL), are modelled by passing the
quantized index grid as an input to the cell loop.  Python floats are
modelled by exact rationals, and Python's `round` (round-half-to-even)
by `pyRound` below.
-/

/-- The built-in default 16-entry 6-bit palette (`DEFAULT_PALETTE`). -/
def DEFAULT_PALETTE : List (List Nat) :=
  [[0, 0, 0], [0, 0, 42], [0, 42, 0], [0, 42, 42], [42, 0, 0], [42, 0, 42],
   [42, 21, 0], [42, 42, 42], [21, 21, 21], [21, 21, 63], [21, 63, 21],
   [21, 63, 63], [63, 21, 21], [63, 21, 63], [63, 63, 21], [63, 63, 63]]

/-- A Python loop that builds a list, aborting the run if any step
raises: `mapMO f l` collects `f a` for each element and is `none` as
soon as one application fails. -/
def mapMO {α β : Type} (f : α → Option β) : List α → Option (List β)
  | [] => some []
  | a :: l =>
    match f a, mapMO f l with
    | some b, some bs => some (b :: bs)
    | _, _ => none

/-- Model of `get_palette` applied to the raw contents of the palette
file.  The source does `k = f.read(48)` (at most 48 bytes) and then the
loop `for i in range(16): pal.append([k[j], k[j+1], k[j+2]]); j += 3`.
A short read makes `k[j]` raise `IndexError`, modelled as `none`. -/
def get_palette (data : List Nat) : Option (List (List Nat)) :=
  let k := data.take 48
  mapMO (fun i =>
    match k[3 * i]?, k[3 * i + 1]?, k[3 * i + 2]? with
    | some a, some b, some c => some [a, b, c]
    | _, _, _ => none) (List.range 16)

/-- Model of `make_8bit_palette`: flatten the nested 6-bit palette and
map each channel through `x*4 + x//16`. -/
def make_8bit_palette (pal6bit : List (List Nat)) : List Nat :=
  pal6bit.flatten.map (fun x => x * 4 + x / 16)

/-- Model of `pp.putpalette(pil_pal * 16)`: the 256-entry diffusion
table is the flat 8-bit palette repeated 16 times. -/
def diffusion_table (pil_pal : List Nat) : List Nat :=
  (List.replicate 16 pil_pal).flatten

/-- Model of Python `str.split(',')` on a list of characters: always
returns at least one (possibly empty) token; separators delimit
tokens. -/
def splitComma : List Char → List (List Char)
  | [] => [[]]
  | ',' :: rest => [] :: splitComma rest
  | c :: rest =>
    match splitComma rest with
    | t :: ts => (c :: t) :: ts
    | [] => [[c]]

/-- Digit-string accumulator for `pyInt`. -/
def digitsAux : List Char → Nat → Option Nat
  | [], acc => some acc
  | c :: cs, acc =>
    if c.isDigit then digitsAux cs (acc * 10 + (c.toNat - 48)) else none

/-- Model of Python `int(token)` on a CLI token: an optional sign
followed by at least one digit; anything else raises `ValueError`,
modelled as `none`. -/
def pyInt (s : List Char) : Option Int :=
  match s with
  | [] => none
  | '-' :: rest =>
    if rest = [] then none else (digitsAux rest 0).map (fun n => -(n : Int))
  | '+' :: rest =>
    if rest = [] then none else (digitsAux rest 0).map (fun n => (n : Int))
  | l => (digitsAux l 0).map (fun n => (n : Int))

/-- Model of `get_chars`: `list(map(int, args.chars.split(',')))`.
Fails (`none`) exactly when `int` fails on some token. -/
def get_chars (chars : List Char) : Option (List Int) :=
  mapMO pyInt (splitComma chars)

/-- Python `round` on an exact rational: round half to even. -/
def pyRound (q : ℚ) : ℤ :=
  if q - ⌊q⌋ < 1 / 2 then ⌊q⌋
  else if 1 / 2 < q - ⌊q⌋ then ⌊q⌋ + 1
  else if ⌊q⌋ % 2 = 0 then ⌊q⌋ else ⌊q⌋ + 1

/-- Python list indexing `l[i]`: negative indices count from the end;
out-of-range indices raise `IndexError`, modelled as `none`. -/
def pyIndex (l : List α) (i : ℤ) : Option α :=
  let j := if i < 0 then (l.length : ℤ) + i else i
  if 0 ≤ j then l[j.toNat]? else none

/-- The comparator of `sorted(..., key=lambda tup: tup[0], reverse=True)`:
descending by count (first component); a stable sort under this
comparator keeps tied entries in original (index-ascending) order,
exactly as Python's stable `sorted` with `reverse=True` does. -/
def descLE : Nat × Nat → Nat × Nat → Bool := fun a b => b.1 ≤ a.1

/-- The list `zip(hist, range(len(hist)))` of (count, bin-index) pairs. -/
def entries (hist : List Nat) : List (Nat × Nat) :=
  hist.zip (List.range hist.length)

/-- The source's `ranking = sorted(zip(hist, range(len(hist))), key=tup[0], reverse=True)`:
stable merge sort of the (count, index) pairs, descending by count. -/
def ranking (hist : List Nat) : List (Nat × Nat) :=
  (entries hist).mergeSort descLE

/-- The source's `winner = ranking[0]` (default value only guards the statement;
the source raises `IndexError` when the histogram has < 1 bin). -/
def winner (hist : List Nat) : Nat × Nat :=
  (ranking hist).getD 0 (0, 0)

/-- The source's `second = ranking[1]`. -/
def second (hist : List Nat) : Nat × Nat :=
  (ranking hist).getD 1 (0, 0)

/-- Model of `rank_histogram_to_col_and_char`.  The two top-ranked
(count, index) pairs give the dominant and secondary colors via
`index % 16`; `winner_ratio = winner[0] / (winner[0] + second[0])`
raises `ZeroDivisionError` on an all-zero histogram (`none`); the glyph
is `mzx_chars[round(ratio * (len(mzx_chars) - 1))]`.  The `mzx_pal`
argument is accepted and unused, as in the source. -/
def rank_histogram_to_col_and_char (hist : List Nat) (mzx_pal : List (List Nat))
    (mzx_chars : List Int) : Option (Int × Nat) :=
  match ranking hist with
  | w :: s :: _ =>
    let winner_col := w.2 % 16
    let second_col := s.2 % 16
    if w.1 + s.1 = 0 then none
    else
      let winner_ratio : ℚ := (w.1 : ℚ) / ((w.1 : ℚ) + (s.1 : ℚ))
      let winner_char_index : ℤ := pyRound (winner_ratio * ((mzx_chars.length : ℚ) - 1))
      (pyIndex mzx_chars winner_char_index).map (fun char => (char, winner_col + second_col * 16))
  | _ => none

/-- PIL `subim.histogram()` for a `P`-mode image: 256 occurrence
counts of the pixel index values. -/
def histogram (pixels : List Nat) : List Nat :=
  (List.range 256).map (fun b => (pixels.filter (fun p => p == b)).length)

/-- The pixels of `newim.crop((lx, uy, rx, dy))`, row-major. -/
def cellPixels (newim : Nat → Nat → Nat) (lx uy rx dy : Nat) : List Nat :=
  ((List.range (dy - uy)).map (fun r =>
    (List.range (rx - lx)).map (fun c => newim (lx + c) (uy + r)))).flatten

/-- Model of the cell loop of `mad_science`.  The resize and
quantization steps are the external PIL collaborators (out of scope in
the program's own design); `newim` is the quantized index grid they
produce.  For each cell in row-major order the cropped block's
histogram is reduced to a (glyph, color) pair; a failing reduction
(Python exception) aborts the run (`none`). -/
def mad_science (width height char_width char_height : Nat)
    (newim : Nat → Nat → Nat) (mzx_pal : List (List Nat)) (mzx_chars : List Int) :
    Option (List (Int × Nat)) :=
  mapMO
    (fun cell =>
      let lx := cell.1 * char_width
      let uy := cell.2 * char_height
      let rx := lx + char_width
      let dy := uy + char_height
      rank_histogram_to_col_and_char (histogram (cellPixels newim lx uy rx dy))
        mzx_pal mzx_chars)
    (((List.range height).map (fun y =>
      (List.range width).map (fun x => (x, y)))).flatten)

/-- Model of `struct.pack('<H', v)`: two little-endian bytes; `struct.error`
(modelled `none`) outside the uint16 range. -/
def packH (v : Nat) : Option (List Nat) :=
  if v < 65536 then some [v % 256, v / 256 % 256] else none

/-- A `bytearray` element: values outside `[0, 256)` raise
`ValueError`, modelled as `none`. -/
def toByte (v : Int) : Option Nat :=
  if 0 ≤ v ∧ v < 256 then some v.toNat else none

/-- Model of `write_mzm`: the packed 20-byte header
`'<ccccHHIBBBBBxxx'` with magic `"MZM3"`, uint16 width and height,
uint32 0, bytes 0, 1, 0, 0x5C, 2 and three padding bytes, followed by
`bytearray(b for pair in layer for b in pair)`. -/
def write_mzm (width height : Nat) (layer : List (Int × Nat)) : Option (List Nat) := do
  let wb ← packH width
  let hb ← packH height
  let header := [77, 90, 77, 51] ++ wb ++ hb ++ [0, 0, 0, 0] ++ [0, 1, 0, 92, 2] ++ [0, 0, 0]
  let file_bytes ← mapMO (fun pair => do
    let g ← toByte pair.1
    let c ← toByte (pair.2 : Int)
    pure [g, c]) layer
  pure (header ++ file_bytes.flatten)

/-- Model of `main`: resolve the palette (default or from the palette
file's bytes), expand it, parse the gradient, run the cell pipeline on
the quantized grid and serialize.  Any failure aborts before any output
bytes exist. -/
def image2mzm (paletteData : Option (List Nat)) (charsArg : List Char)
    (width height char_width char_height : Nat) (newim : Nat → Nat → Nat) :
    Option (List Nat) := do
  let mzx_pal ← match paletteData with
    | none => some DEFAULT_PALETTE
    | some d => get_palette d
  let _pil_pal := make_8bit_palette mzx_pal
  let chars ← get_chars charsArg
  let layer ← mad_science width height char_width char_height newim mzx_pal chars
  write_mzm width height layer

/-! ## Helper lemmas -/

theorem pyRound_ge_floor (q : ℚ) : ⌊q⌋ ≤ pyRound q := by
  unfold pyRound; split_ifs <;> omega

theorem pyRound_le_floor_add_one (q : ℚ) : pyRound q ≤ ⌊q⌋ + 1 := by
  unfold pyRound; split_ifs <;> omega

theorem pyRound_intCast (k : ℤ) : pyRound (k : ℚ) = k := by
  unfold pyRound
  rw [Int.floor_intCast]
  norm_num

theorem pyRound_mono {a b : ℚ} (hab : a ≤ b) : pyRound a ≤ pyRound b := by
  rcases lt_or_eq_of_le (Int.floor_mono hab) with hlt | heq
  · calc pyRound a ≤ ⌊a⌋ + 1 := pyRound_le_floor_add_one a
      _ ≤ ⌊b⌋ := by omega
      _ ≤ pyRound b := pyRound_ge_floor b
  · unfold pyRound
    rw [← heq]
    by_cases h1 : a - ⌊a⌋ < 1 / 2
    · rw [if_pos h1]
      split_ifs <;> omega
    · have h1b : ¬ (b - (⌊a⌋ : ℚ) < 1 / 2) := by
        push_neg at h1 ⊢; linarith
      by_cases h2 : (1 : ℚ) / 2 < b - ⌊a⌋
      · rw [if_neg h1, if_neg h1b, if_pos h2]
        split_ifs <;> omega
      · have hae : a = b := by
          push_neg at h1 h2
          have : a - (⌊a⌋ : ℚ) ≤ b - ⌊a⌋ := by linarith
          linarith
      
        rw [hae]

theorem pyRound_le_intCast {q : ℚ} {k : ℤ} (h : q ≤ k) : pyRound q ≤ k := by
  have := pyRound_mono h
  rwa [pyRound_intCast] at this

theorem intCast_le_pyRound {q : ℚ} {k : ℤ} (h : (k : ℚ) ≤ q) : k ≤ pyRound q := by
  have := pyRound_mono h
  rwa [pyRound_intCast] at this

theorem mapMO_some {α β : Type} (f : α → Option β) (g : α → β) :
    ∀ l : List α, (∀ a ∈ l, f a = some (g a)) → mapMO f l = some (l.map g)
  | [], _ => by simp [mapMO]
  | a :: l, h => by
    have ha := h a (List.mem_cons_self a l)
    have ih := mapMO_some f g l (fun x hx => h x (List.mem_cons_of_mem a hx))
    simp [mapMO, ha, ih]

theorem mapMO_none {α β : Type} (f : α → Option β) :
    ∀ (l : List α) (a : α), a ∈ l → f a = none → mapMO f l = none
  | a :: l, x, hx, hfx => by
    rcases List.mem_cons.mp hx with rfl | hmem
    · simp [mapMO, hfx]
    · have ih := mapMO_none f l x hmem hfx
      cases hfa : f a <;> simp [mapMO, hfa, ih]

theorem getD_mem_of_lt {α : Type} (l : List α) (k : Nat) (d : α) (hk : k < l.length) :
    l.getD k d ∈ l := by
  rw [List.getD_eq_getElem l d hk]
  exact List.getElem_mem hk

theorem sum_eq_zero_of_all_zero : ∀ l : List Nat, (∀ x ∈ l, x = 0) → l.sum = 0
  | [], _ => rfl
  | a :: l, h => by
    have ha := h a (List.mem_cons_self a l)
    have ih := sum_eq_zero_of_all_zero l (fun x hx => h x (List.mem_cons_of_mem a hx))
    simp [ha, ih]

theorem pair_sublist_getD {α : Type} (d : α) (l : List α) :
    ∀ i j : Nat, i < j → j < l.length → List.Sublist [l.getD i d, l.getD j d] l := by
  induction l with
  | nil => intro i j hij hj; simp at hj
  | cons a t ih =>
    intro i j hij hj
    obtain ⟨j', rfl⟩ : ∃ j', j = j' + 1 := ⟨j - 1, by omega⟩
    cases i with
    | zero =>
      simp only [List.getD_cons_zero, List.getD_cons_succ]
      apply List.Sublist.cons₂
      rw [List.singleton_sublist]
      exact getD_mem_of_lt t j' d (by simpa using hj)
    | succ i' =>
      simp only [List.getD_cons_succ]
      exact List.Sublist.cons a (ih i' j' (by omega) (by simpa using hj))

theorem not_pair_sublist_cons {α : Type} {q p : α} {rest : List α}
    (hne : q ≠ p) (hnmem : p ∉ rest) : ¬ List.Sublist [q, p] (p :: rest) := by
  intro h
  cases h with
  | cons _ h' => exact hnmem (h'.subset (by simp))
  | cons₂ _ h' => exact hne rfl

theorem not_pair_sublist_cons_cons {α : Type} {q w s : α} {rest : List α}
    (hqw : q ≠ w) (hqs : q ≠ s) (hsmem : s ∉ rest) : ¬ List.Sublist [q, s] (w :: s :: rest) := by
  intro h
  cases h with
  | cons _ h' =>
    cases h' with
    | cons _ h'' => exact hsmem (h''.subset (by simp))
    | cons₂ _ h'' => exact hqs rfl
  | cons₂ _ h' => exact hqw rfl

theorem descLE_trans : ∀ a b c : Nat × Nat, descLE a b → descLE b c → descLE a c := by
  intro a b c hab hbc
  simp only [descLE, decide_eq_true_eq] at *
  omega

theorem descLE_total : ∀ a b : Nat × Nat, descLE a b || descLE b a := by
  intro a b
  simp only [descLE, Bool.or_eq_true, decide_eq_true_eq]
  omega

theorem entries_length (hist : List Nat) : (entries hist).length = hist.length := by
  simp [entries]

theorem entries_getD (hist : List Nat) (i : Nat) (hi : i < hist.length) :
    (entries hist).getD i (0, 0) = (hist.getD i 0, i) := by
  have hie : i < (entries hist).length := by rwa [entries_length]
  rw [List.getD_eq_getElem _ _ hie, List.getD_eq_getElem _ _ hi]
  simp [entries, List.getElem_zip, List.getElem_range]

theorem entry_mem (hist : List Nat) (k : Nat) (hk : k < hist.length) :
    (hist.getD k 0, k) ∈ entries hist := by
  rw [← entries_getD hist k hk]
  exact getD_mem_of_lt _ k _ (by rwa [entries_length])

theorem entries_mem (hist : List Nat) (p : Nat × Nat) (hp : p ∈ entries hist) :
    p.2 < hist.length ∧ p.1 = hist.getD p.2 0 := by
  rcases List.mem_iff_getElem.mp hp with ⟨i, hi, he⟩
  have hih : i < hist.length := by rwa [entries_length] at hi
  have : (entries hist).getD i (0, 0) = p := by
    rw [List.getD_eq_getElem _ _ hi]; exact he
  rw [entries_getD hist i hih] at this
  have h2 : p.2 = i := by rw [← this]
  have h1 : p.1 = hist.getD i 0 := by rw [← this]
  rw [h2]
  exact ⟨hih, h1⟩

theorem entries_nodup (hist : List Nat) : (entries hist).Nodup := by
  have hm : (entries hist).map Prod.snd = List.range hist.length := by
    apply List.map_snd_zip
    simp
  apply List.Nodup.of_map Prod.snd
  rw [hm]
  exact List.nodup_range _

theorem ranking_perm (hist : List Nat) : (ranking hist).Perm (entries hist) :=
  List.mergeSort_perm _ _

theorem ranking_length (hist : List Nat) : (ranking hist).length = hist.length := by
  rw [(ranking_perm hist).length_eq, entries_length]

theorem ranking_nodup (hist : List Nat) : (ranking hist).Nodup :=
  ((ranking_perm hist).nodup_iff).mpr (entries_nodup hist)

theorem ranking_sorted (hist : List Nat) :
    (ranking hist).Pairwise (fun a b : Nat × Nat => b.1 ≤ a.1) := by
  have h := List.sorted_mergeSort descLE_trans descLE_total (entries hist)
  exact h.imp (fun hab => by simpa [descLE] using hab)

theorem ranking_pair (hist : List Nat) (i j : Nat) (hij : i < j) (hj : j < hist.length)
    (hle : hist.getD j 0 ≤ hist.getD i 0) :
    List.Sublist [(hist.getD i 0, i), (hist.getD j 0, j)] (ranking hist) := by
  have hsub : List.Sublist [(hist.getD i 0, i), (hist.getD j 0, j)] (entries hist) := by
    have h := pair_sublist_getD (0, 0) (entries hist) i j hij (by rwa [entries_length])
    rwa [entries_getD hist i (by omega), entries_getD hist j hj] at h
  exact List.pair_sublist_mergeSort descLE_trans descLE_total (by simpa [descLE] using hle) hsub

theorem list_eq_two_cons {α : Type} (d : α) (l : List α) (h2 : 2 ≤ l.length) :
    l = l.getD 0 d :: l.getD 1 d :: l.drop 2 := by
  match l with
  | a :: b :: t => simp
  | [] => simp at h2
  | [a] => simp at h2

theorem ranking_cons (hist : List Nat) (h2 : 2 ≤ hist.length) :
    ranking hist = winner hist :: second hist :: (ranking hist).drop 2 := by
  have h := list_eq_two_cons (0, 0) (ranking hist) (by rw [ranking_length]; exact h2)
  rw [winner, second]
  exact h

theorem winner_mem (hist : List Nat) (h2 : 2 ≤ hist.length) : winner hist ∈ entries hist := by
  apply (ranking_perm hist).subset
  rw [ranking_cons hist h2]
  exact List.mem_cons_self _ _

theorem second_mem (hist : List Nat) (h2 : 2 ≤ hist.length) : second hist ∈ entries hist := by
  apply (ranking_perm hist).subset
  rw [ranking_cons hist h2]
  exact List.mem_cons_of_mem _ (List.mem_cons_self _ _)

theorem winner_spec (hist : List Nat) (h2 : 2 ≤ hist.length) :
    (winner hist).2 < hist.length ∧ (winner hist).1 = hist.getD (winner hist).2 0 :=
  entries_mem hist _ (winner_mem hist h2)

theorem second_spec (hist : List Nat) (h2 : 2 ≤ hist.length) :
    (second hist).2 < hist.length ∧ (second hist).1 = hist.getD (second hist).2 0 :=
  entries_mem hist _ (second_mem hist h2)

theorem winner_ne_second (hist : List Nat) (h2 : 2 ≤ hist.length) :
    winner hist ≠ second hist := by
  have hn := ranking_nodup hist
  rw [ranking_cons hist h2, List.nodup_cons] at hn
  intro he
  exact hn.1 (he ▸ List.mem_cons_self _ _)

theorem second_notin_drop (hist : List Nat) (h2 : 2 ≤ hist.length) :
    second hist ∉ (ranking hist).drop 2 := by
  have hn := ranking_nodup hist
  rw [ranking_cons hist h2, List.nodup_cons, List.nodup_cons] at hn
  exact hn.2.1

theorem winner_idx_ne_second_idx (hist : List Nat) (h2 : 2 ≤ hist.length) :
    (winner hist).2 ≠ (second hist).2 := by
  intro he
  apply winner_ne_second hist h2
  have hw := winner_spec hist h2
  have hs := second_spec hist h2
  have : (winner hist).1 = (second hist).1 := by rw [hw.2, hs.2, he]
  exact Prod.ext this he

theorem winner_max (hist : List Nat) (h2 : 2 ≤ hist.length) (k : Nat) (hk : k < hist.length) :
    hist.getD k 0 ≤ (winner hist).1 := by
  have hmem : (hist.getD k 0, k) ∈ ranking hist :=
    (ranking_perm hist).mem_iff.mpr (entry_mem hist k hk)
  rw [ranking_cons hist h2] at hmem
  rcases List.mem_cons.mp hmem with he | hmem2
  · rw [show hist.getD k 0 = (hist.getD k 0, k).1 from rfl, he]
  · have hp := ranking_sorted hist
    rw [ranking_cons hist h2, List.pairwise_cons] at hp
    exact hp.1 _ hmem2

theorem second_max (hist : List Nat) (h2 : 2 ≤ hist.length) (k : Nat)
    (hk : k < hist.length) (hkw : k ≠ (winner hist).2) :
    hist.getD k 0 ≤ (second hist).1 := by
  have hmem : (hist.getD k 0, k) ∈ ranking hist :=
    (ranking_perm hist).mem_iff.mpr (entry_mem hist k hk)
  rw [ranking_cons hist h2] at hmem
  rcases List.mem_cons.mp hmem with he | hmem2
  · exact absurd (congrArg Prod.snd he) hkw
  · rcases List.mem_cons.mp hmem2 with he2 | hmem3
    · rw [show hist.getD k 0 = (hist.getD k 0, k).1 from rfl, he2]
    · have hp := ranking_sorted hist
      rw [ranking_cons hist h2, List.pairwise_cons, List.pairwise_cons] at hp
      exact hp.2.1 _ hmem3

theorem second_le_winner (hist : List Nat) (h2 : 2 ≤ hist.length) :
    (second hist).1 ≤ (winner hist).1 := by
  have hp := ranking_sorted hist
  rw [ranking_cons hist h2, List.pairwise_cons] at hp
  exact hp.1 _ (List.mem_cons_self _ _)

theorem winner_tie_min (hist : List Nat) (h2 : 2 ≤ hist.length) (k : Nat)
    (hk : k < (winner hist).2) (htie : hist.getD k 0 = (winner hist).1) : False := by
  have hw := winner_spec hist h2
  have hp : List.Sublist [(hist.getD k 0, k), (hist.getD (winner hist).2 0, (winner hist).2)]
      (ranking hist) :=
    ranking_pair hist k (winner hist).2 hk hw.1 (by rw [← hw.2, htie])
  have hww : (hist.getD (winner hist).2 0, (winner hist).2) = winner hist := by
    rw [← hw.2]
  rw [hww, ranking_cons hist h2] at hp
  have hn := ranking_nodup hist
  rw [ranking_cons hist h2, List.nodup_cons] at hn
  apply not_pair_sublist_cons _ hn.1 hp
  intro he
  have := congrArg Prod.snd he
  simp only at this
  omega

theorem second_tie_min (hist : List Nat) (h2 : 2 ≤ hist.length) (k : Nat)
    (hk : k < (second hist).2) (hkw : k ≠ (winner hist).2)
    (htie : hist.getD k 0 = (second hist).1) : False := by
  have hs := second_spec hist h2
  have hp : List.Sublist [(hist.getD k 0, k), (hist.getD (second hist).2 0, (second hist).2)]
      (ranking hist) :=
    ranking_pair hist k (second hist).2 hk hs.1 (by rw [← hs.2, htie])
  have hss : (hist.getD (second hist).2 0, (second hist).2) = second hist := by
    rw [← hs.2]
  rw [hss, ranking_cons hist h2] at hp
  apply not_pair_sublist_cons_cons _ _ (second_notin_drop hist h2) hp
  · intro he
    exact hkw (congrArg Prod.snd he)
  · intro he
    have := congrArg Prod.snd he
    simp only at this
    omega

theorem rank_eq (hist : List Nat) (mzx_pal : List (List Nat)) (mzx_chars : List Int)
    (h2 : 2 ≤ hist.length) :
    rank_histogram_to_col_and_char hist mzx_pal mzx_chars =
      (if (winner hist).1 + (second hist).1 = 0 then none
       else
         (pyIndex mzx_chars
            (pyRound ((((winner hist).1 : ℚ) / (((winner hist).1 : ℚ) + ((second hist).1 : ℚ))) *
              ((mzx_chars.length : ℚ) - 1)))).map
           (fun char => (char, (winner hist).2 % 16 + (second hist).2 % 16 * 16))) := by
  unfold rank_histogram_to_col_and_char
  rw [ranking_cons hist h2]

theorem rank_zero (hist : List Nat) (mzx_pal : List (List Nat)) (mzx_chars : List Int)
    (h2 : 2 ≤ hist.length) (hz : ∀ x ∈ hist, x = 0) :
    rank_histogram_to_col_and_char hist mzx_pal mzx_chars = none := by
  rw [rank_eq hist mzx_pal mzx_chars h2]
  have hw := winner_spec hist h2
  have hs := second_spec hist h2
  have hw0 : (winner hist).1 = 0 := by
    rw [hw.2]; exact hz _ (getD_mem_of_lt hist _ 0 hw.1)
  have hs0 : (second hist).1 = 0 := by
    rw [hs.2]; exact hz _ (getD_mem_of_lt hist _ 0 hs.1)
  rw [hw0, hs0]
  simp

theorem winner_pos_of_sum_pos (hist : List Nat) (h2 : 2 ≤ hist.length)
    (hsum : 0 < hist.sum) : 0 < (winner hist).1 := by
  by_contra h
  push_neg at h
  have hz : ∀ x ∈ hist, x = 0 := by
    intro x hx
    rcases List.mem_iff_getElem.mp hx with ⟨i, hi, he⟩
    have hle := winner_max hist h2 i hi
    rw [List.getD_eq_getElem _ _ hi, he] at hle
    omega
  rw [sum_eq_zero_of_all_zero hist hz] at hsum
  exact lt_irrefl 0 hsum

theorem pyIndex_of_nonneg {α : Type} (l : List α) (i : ℤ) (h0 : 0 ≤ i) :
    pyIndex l i = l[i.toNat]? := by
  simp only [pyIndex]
  rw [if_neg (show ¬ i < 0 by omega), if_pos h0]

theorem ratio_pos (hist : List Nat) (hwpos : 0 < (winner hist).1) :
    0 < (((winner hist).1 : ℚ) / (((winner hist).1 : ℚ) + ((second hist).1 : ℚ))) := by
  apply div_pos
  · exact_mod_cast hwpos
  · have : (0 : ℚ) ≤ ((second hist).1 : ℚ) := by positivity
    have hw : (0 : ℚ) < ((winner hist).1 : ℚ) := by exact_mod_cast hwpos
    linarith

theorem ratio_le_one (hist : List Nat) (hwpos : 0 < (winner hist).1) :
    (((winner hist).1 : ℚ) / (((winner hist).1 : ℚ) + ((second hist).1 : ℚ))) ≤ 1 := by
  rw [div_le_one]
  · have : (0 : ℚ) ≤ ((second hist).1 : ℚ) := by positivity
    linarith
  · have hw : (0 : ℚ) < ((winner hist).1 : ℚ) := by exact_mod_cast hwpos
    have : (0 : ℚ) ≤ ((second hist).1 : ℚ) := by positivity
    linarith

theorem rank_result (hist : List Nat) (mzx_pal : List (List Nat)) (chars : List Int)
    (h2 : 2 ≤ hist.length) (hwpos : 0 < (winner hist).1) (hlen : 2 ≤ chars.length) :
    0 ≤ pyRound ((((winner hist).1 : ℚ) / (((winner hist).1 : ℚ) + ((second hist).1 : ℚ))) *
        ((chars.length : ℚ) - 1)) ∧
    pyRound ((((winner hist).1 : ℚ) / (((winner hist).1 : ℚ) + ((second hist).1 : ℚ))) *
        ((chars.length : ℚ) - 1)) ≤ (chars.length : ℤ) - 1 ∧
    rank_histogram_to_col_and_char hist mzx_pal chars =
      some (chars.getD (pyRound ((((winner hist).1 : ℚ) /
              (((winner hist).1 : ℚ) + ((second hist).1 : ℚ))) *
              ((chars.length : ℚ) - 1))).toNat 0,
            (winner hist).2 % 16 + (second hist).2 % 16 * 16) := by
  have hrpos := ratio_pos hist hwpos
  have hrle := ratio_le_one hist hwpos
  have hlq : (1 : ℚ) ≤ (chars.length : ℚ) - 1 := by
    have : (2 : ℚ) ≤ (chars.length : ℚ) := by exact_mod_cast hlen
    linarith
  have hprod_nonneg : (0 : ℚ) ≤ (((winner hist).1 : ℚ) /
      (((winner hist).1 : ℚ) + ((second hist).1 : ℚ))) * ((chars.length : ℚ) - 1) := by
    apply mul_nonneg hrpos.le
    linarith
  have hprod_le : (((winner hist).1 : ℚ) /
      (((winner hist).1 : ℚ) + ((second hist).1 : ℚ))) * ((chars.length : ℚ) - 1) ≤
      (chars.length : ℚ) - 1 := by
    calc (((winner hist).1 : ℚ) / (((winner hist).1 : ℚ) + ((second hist).1 : ℚ))) *
          ((chars.length : ℚ) - 1)
        ≤ 1 * ((chars.length : ℚ) - 1) := by
          apply mul_le_mul_of_nonneg_right hrle
          linarith
      _ = (chars.length : ℚ) - 1 := one_mul _
  have hidx0 : 0 ≤ pyRound ((((winner hist).1 : ℚ) /
      (((winner hist).1 : ℚ) + ((second hist).1 : ℚ))) * ((chars.length : ℚ) - 1)) := by
    apply intCast_le_pyRound
    push_cast
    exact hprod_nonneg
  have hidx1 : pyRound ((((winner hist).1 : ℚ) /
      (((winner hist).1 : ℚ) + ((second hist).1 : ℚ))) * ((chars.length : ℚ) - 1)) ≤
      (chars.length : ℤ) - 1 := by
    apply pyRound_le_intCast
    push_cast
    exact hprod_le
  refine ⟨hidx0, hidx1, ?_⟩
  rw [rank_eq hist mzx_pal chars h2]
  rw [if_neg (show ¬ ((winner hist).1 + (second hist).1 = 0) by omega)]
  have hlt : (pyRound ((((winner hist).1 : ℚ) /
      (((winner hist).1 : ℚ) + ((second hist).1 : ℚ))) * ((chars.length : ℚ) - 1))).toNat <
      chars.length := by omega
  rw [pyIndex_of_nonneg chars _ hidx0]
  rw [List.getElem?_eq_getElem hlt]
  rw [List.getD_eq_getElem chars 0 hlt]
  rfl

theorem winner_second_zero (hist : List Nat) (h2 : 2 ≤ hist.length)
    (hz : ∀ x ∈ hist, x = 0) : (winner hist).1 = 0 ∧ (second hist).1 = 0 := by
  have hw := winner_spec hist h2
  have hs := second_spec hist h2
  constructor
  · rw [hw.2]; exact hz _ (getD_mem_of_lt hist _ 0 hw.1)
  · rw [hs.2]; exact hz _ (getD_mem_of_lt hist _ 0 hs.1)

theorem histogram_length (pixels : List Nat) : (histogram pixels).length = 256 := by
  rw [histogram, List.length_map, List.length_range]

set_option maxRecDepth 10000 in
theorem histogram_all_zero_of_nil (pixels : List Nat) (hp : pixels = []) :
    ∀ x ∈ histogram pixels, x = 0 := by
  intro x hx
  rw [hp] at hx
  simp [histogram] at hx
  exact hx

theorem flatten_replicate_getElem (p : List Nat) (hp : p.length = 48) :
    ∀ (m k : Nat), k < m * 48 → ((List.replicate m p).flatten)[k]? = p[k % 48]? := by
  intro m
  induction m with
  | zero => intro k hk; omega
  | succ m ih =>
    intro k hk
    rw [List.replicate_succ, List.flatten_cons]
    by_cases hk48 : k < 48
    · rw [List.getElem?_append_left (by omega)]
      rw [Nat.mod_eq_of_lt hk48]
    · rw [List.getElem?_append_right (by omega)]
      rw [hp, ih (k - 48) (by omega)]
      congr 1
      omega

theorem flatten_pairs_length :
    ∀ l : List (Int × Nat), ((l.map (fun p => [p.1.toNat, p.2])).flatten).length = 2 * l.length
  | [] => rfl
  | a :: l => by
    have := flatten_pairs_length l
    simp only [List.map_cons, List.flatten_cons, List.length_append, List.length_cons]
    simp at this ⊢
    omega

/-! ## Claim theorems -/

/-- C1 (counterexample): a single-entry gradient spec is not rejected.
`get_chars` on the spec `"1"` (one token, no comma) succeeds and
returns the one-element gradient `[1]`; no `InvalidGradientError` is
raised, contradicting the claim that fewer than 2 entries fail. -/
theorem C1_counterexample :
    (splitComma ['1']).length = 1 ∧ get_chars ['1'] = some [1] := by
  constructor <;> decide

/-- C1 (amended): gradient parsing fails (Python `ValueError` from
`int`, modelled `none`) whenever some comma-separated token is not a
valid integer literal, but a spec with fewer than 2 entries is silently
accepted: `--chars "1"` yields the single-entry gradient `[1]`. -/
theorem C1_gradient_parsing (s t : List Char) (ht : t ∈ splitComma s)
    (hbad : pyInt t = none) :
    get_chars s = none ∧ get_chars ['1'] = some [1] :=
  ⟨mapMO_none pyInt (splitComma s) t ht hbad, by decide⟩

/-- C1 witness: the spec `"1,x"` has the non-numeric token `"x"` and is
rejected, while `"1"` parses to `[1]`. -/
theorem C1_gradient_parsing_witness :
    (['x'] ∈ splitComma ['1', ',', 'x'] ∧ pyInt ['x'] = none) ∧
    (get_chars ['1', ',', 'x'] = none ∧ get_chars ['1'] = some [1]) :=
  ⟨⟨by decide, by decide⟩, C1_gradient_parsing ['1', ',', 'x'] ['x'] (by decide) (by decide)⟩

/-- C3: with fewer than 48 palette bytes the loader fails (`none`,
Python `IndexError` while grouping, the spec's `MalformedPaletteError`)
and the whole run produces no output bytes; with at least 48 bytes the
loader reads exactly the first 48 bytes and groups them into 16
consecutive RGB triples. -/
theorem C3_palette_loader (data : List Nat) :
    (data.length < 48 →
      get_palette data = none ∧
      ∀ (chars : List Char) (w h cw ch : Nat) (newim : Nat → Nat → Nat),
        image2mzm (some data) chars w h cw ch newim = none) ∧
    (48 ≤ data.length →
      get_palette data = some ((List.range 16).map (fun i =>
        [data.getD (3 * i) 0, data.getD (3 * i + 1) 0, data.getD (3 * i + 2) 0])) ∧
      ∀ pal, get_palette data = some pal → pal.length = 16) := by
  constructor
  · intro hshort
    have h47 : (data.take 48)[47]? = none := by
      rw [List.getElem?_eq_none]
      simp
      omega
    have hnone : get_palette data = none := by
      apply mapMO_none _ _ 15 (by decide)
      cases h45 : (data.take 48)[3 * 15]? <;> cases h46 : (data.take 48)[3 * 15 + 1]? <;>
        simp [h45, h46, h47]
    refine ⟨hnone, ?_⟩
    intro chars w h cw ch newim
    simp [image2mzm, hnone]
  · intro hlong
    have htake : (data.take 48).length = 48 := by simp; omega
    have hsome : get_palette data = some ((List.range 16).map (fun i =>
        [data.getD (3 * i) 0, data.getD (3 * i + 1) 0, data.getD (3 * i + 2) 0])) := by
      apply mapMO_some
      intro i hi
      have hi16 : i < 16 := by simpa using hi
      have h0 : 3 * i < (data.take 48).length := by omega
      have h1 : 3 * i + 1 < (data.take 48).length := by omega
      have h2 : 3 * i + 2 < (data.take 48).length := by omega
      rw [List.getElem?_eq_getElem h0, List.getElem?_eq_getElem h1, List.getElem?_eq_getElem h2]
      have e0 : (data.take 48)[3 * i] = data.getD (3 * i) 0 := by
        rw [List.getElem_take]
        rw [List.getD_eq_getElem data 0 (by omega)]
      have e1 : (data.take 48)[3 * i + 1] = data.getD (3 * i + 1) 0 := by
        rw [List.getElem_take]
        rw [List.getD_eq_getElem data 0 (by omega)]
      have e2 : (data.take 48)[3 * i + 2] = data.getD (3 * i + 2) 0 := by
        rw [List.getElem_take]
        rw [List.getD_eq_getElem data 0 (by omega)]
      rw [e0, e1, e2]
    refine ⟨hsome, ?_⟩
    intro pal hpal
    rw [hsome] at hpal
    have := Option.some.inj hpal
    rw [← this]
    simp

/-- C3 witness: a 30-byte palette file is rejected and aborts the run;
a 48-byte palette file is accepted. -/
theorem C3_palette_loader_witness :
    ((List.replicate 30 0 : List Nat).length < 48 ∧
      get_palette (List.replicate 30 0) = none) ∧
    (48 ≤ (List.replicate 48 7 : List Nat).length ∧
      get_palette (List.replicate 48 7) = some ((List.range 16).map (fun i =>
        [(List.replicate 48 7 : List Nat).getD (3 * i) 0,
         (List.replicate 48 7 : List Nat).getD (3 * i + 1) 0,
         (List.replicate 48 7 : List Nat).getD (3 * i + 2) 0]))) :=
  ⟨⟨by decide, ((C3_palette_loader (List.replicate 30 0)).1 (by decide)).1⟩,
   ⟨by decide, ((C3_palette_loader (List.replicate 48 7)).2 (by decide)).1⟩⟩

/-- C8: palette expansion maps every channel value `v` to
`v*4 + v//16`, and on 6-bit inputs (all values at most 63) every
expanded value is at most 255, with 63 present mapping to 255 present. -/
theorem C8_expand (pal : List (List Nat)) (hv : ∀ v ∈ pal.flatten, v ≤ 63) :
    make_8bit_palette pal = pal.flatten.map (fun v => v * 4 + v / 16) ∧
    (∀ b ∈ make_8bit_palette pal, b ≤ 255) ∧
    (63 ∈ pal.flatten → 255 ∈ make_8bit_palette pal) := by
  refine ⟨rfl, ?_, ?_⟩
  · intro b hb
    rcases List.mem_map.mp hb with ⟨v, hvmem, rfl⟩
    have := hv v hvmem
    omega
  · intro h63
    have h255 : (255 : Nat) = 63 * 4 + 63 / 16 := by norm_num
    rw [h255]
    exact List.mem_map_of_mem _ h63

/-- C8 witness: the built-in default palette is 6-bit valid; its
expansion stays in byte range and maps its 63 channels to 255. -/
theorem C8_expand_witness :
    (∀ v ∈ DEFAULT_PALETTE.flatten, v ≤ 63) ∧
    (∀ b ∈ make_8bit_palette DEFAULT_PALETTE, b ≤ 255) ∧
    (63 ∈ DEFAULT_PALETTE.flatten → 255 ∈ make_8bit_palette DEFAULT_PALETTE) :=
  ⟨by decide, (C8_expand DEFAULT_PALETTE (by decide)).2.1,
    (C8_expand DEFAULT_PALETTE (by decide)).2.2⟩

/-- C9: the diffusion table built from a 48-byte flat (16-color, 3
channels) expanded palette has exactly 256 color entries (768 channel
bytes) and its color triples repeat with period 16:
entry `i` equals entry `i % 16` channel for channel. -/
theorem C9_diffusion_table (p : List Nat) (hp : p.length = 48) :
    (diffusion_table p).length = 3 * 256 ∧
    ∀ i, i < 256 → ∀ j, j < 3 →
      (diffusion_table p)[3 * i + j]? = (diffusion_table p)[3 * (i % 16) + j]? := by
  constructor
  · simp [diffusion_table, hp]
  · intro i hi j hj
    rw [show diffusion_table p = (List.replicate 16 p).flatten from rfl]
    rw [flatten_replicate_getElem p hp 16 (3 * i + j) (by omega)]
    rw [flatten_replicate_getElem p hp 16 (3 * (i % 16) + j) (by omega)]
    congr 1
    omega

/-- C9 witness: instantiated at the expansion of the default palette. -/
theorem C9_diffusion_table_witness :
    (make_8bit_palette DEFAULT_PALETTE).length = 48 ∧
    (diffusion_table (make_8bit_palette DEFAULT_PALETTE)).length = 3 * 256 :=
  ⟨by decide, (C9_diffusion_table (make_8bit_palette DEFAULT_PALETTE) (by decide)).1⟩

/-- C7: for byte-valued layers of the right size, the writer emits the
exact 20-byte little-endian header — magic `"MZM3"` (77, 90, 77, 51),
uint16 width, uint16 height, uint32 0, bytes 0, 1, 0, 0x5C (92), 2 and
three padding bytes — immediately followed by the layer flattened as
glyph byte then color byte per pair in layer order, for a total of
exactly `20 + 2*(w*h)` bytes. -/
theorem C7_write_mzm (w h : Nat) (layer : List (Int × Nat))
    (hw : w < 65536) (hh : h < 65536) (hlen : layer.length = w * h)
    (hbytes : ∀ p ∈ layer, 0 ≤ p.1 ∧ p.1 < 256 ∧ p.2 < 256) :
    write_mzm w h layer =
      some ([77, 90, 77, 51, w % 256, w / 256 % 256, h % 256, h / 256 % 256,
             0, 0, 0, 0, 0, 1, 0, 92, 2, 0, 0, 0] ++
            (layer.map (fun p => [p.1.toNat, p.2])).flatten) ∧
    ∀ out, write_mzm w h layer = some out → out.length = 20 + 2 * (w * h) := by
  have hmap : mapMO (fun pair => do
      let g ← toByte pair.1
      let c ← toByte ((pair.2 : Nat) : Int)
      pure [g, c]) layer = some (layer.map (fun p => [p.1.toNat, p.2])) := by
    apply mapMO_some
    intro p hp
    rcases hbytes p hp with ⟨h0, h1, h2⟩
    have hg : toByte p.1 = some p.1.toNat := by
      rw [toByte, if_pos ⟨h0, h1⟩]
    have hc : toByte ((p.2 : Nat) : Int) = some p.2 := by
      rw [toByte, if_pos (by constructor <;> omega)]
      simp
    simp [hg, hc]
  have hmain : write_mzm w h layer =
      some ([77, 90, 77, 51, w % 256, w / 256 % 256, h % 256, h / 256 % 256,
             0, 0, 0, 0, 0, 1, 0, 92, 2, 0, 0, 0] ++
            (layer.map (fun p => [p.1.toNat, p.2])).flatten) := by
    rw [write_mzm, packH, if_pos hw, packH, if_pos hh]
    simp only [Option.bind_some, Option.some_bind]
    rw [hmap]
    simp
  refine ⟨hmain, ?_⟩
  intro out hout
  rw [hmain] at hout
  have hout2 := Option.some.inj hout
  rw [← hout2, List.length_append, flatten_pairs_length, hlen]
  simp

/-- C7 witness: the default 80×25 grid with a 2000-pair byte-valued
layer yields output of exactly 4020 bytes. -/
theorem C7_write_mzm_witness :
    (80 < 65536 ∧ 25 < 65536 ∧
      (List.replicate 2000 ((176 : Int), (7 : Nat))).length = 80 * 25 ∧
      (∀ p ∈ List.replicate 2000 ((176 : Int), (7 : Nat)), 0 ≤ p.1 ∧ p.1 < 256 ∧ p.2 < 256)) ∧
    (∀ out, write_mzm 80 25 (List.replicate 2000 ((176 : Int), (7 : Nat))) = some out →
      out.length = 20 + 2 * (80 * 25)) :=
  ⟨⟨by norm_num, by norm_num, by rw [List.length_replicate], by
      intro p hp
      rw [List.eq_of_mem_replicate hp]
      refine ⟨by norm_num, by norm_num, by norm_num⟩⟩,
   (C7_write_mzm 80 25 (List.replicate 2000 ((176 : Int), (7 : Nat))) (by norm_num) (by norm_num)
      (by rw [List.length_replicate]) (by
        intro p hp
        rw [List.eq_of_mem_replicate hp]
        refine ⟨by norm_num, by norm_num, by norm_num⟩)).2⟩

/-- C4: the ranking is by count descending with ties broken by lower
original bin index.  If bin `i` holds a top count, bin `j > i` ties it,
every bin below `j` other than `i` is strictly smaller, then bin `i`
becomes `winner = ranking[0]` and bin `j` becomes `second = ranking[1]`:
the lower-index tied bin wins and the runner-up among the remaining
ties is the lowest-index one, so the result is deterministic. -/
theorem C4_tie_break (hist : List Nat) (h256 : hist.length = 256) (i j : Nat)
    (hij : i < j) (hj : j < 256)
    (htie : hist.getD j 0 = hist.getD i 0)
    (htop : ∀ k, k < 256 → hist.getD k 0 ≤ hist.getD i 0)
    (hmin : ∀ k, k < j → k ≠ i → hist.getD k 0 < hist.getD j 0) :
    winner hist = (hist.getD i 0, i) ∧ second hist = (hist.getD j 0, j) := by
  have h2 : 2 ≤ hist.length := by omega
  have hilen : i < hist.length := by omega
  have hjlen : j < hist.length := by omega
  have hw := winner_spec hist h2
  have hs := second_spec hist h2
  have hw1 : (winner hist).1 = hist.getD i 0 := by
    have hle1 : hist.getD i 0 ≤ (winner hist).1 := winner_max hist h2 i hilen
    have hle2 : (winner hist).1 ≤ hist.getD i 0 := by
      rw [hw.2]
      exact htop (winner hist).2 (by omega)
    omega
  have hw2 : (winner hist).2 = i := by
    by_contra hne
    rcases Nat.lt_or_ge (winner hist).2 i with hlt | hge
    · have hwj : (winner hist).2 < j := by omega
      have := hmin (winner hist).2 hwj (by omega)
      rw [htie, ← hw1, hw.2] at this
      omega
    · have hlt2 : i < (winner hist).2 := by omega
      exact winner_tie_min hist h2 i hlt2 (by omega)
  have hwfin : winner hist = (hist.getD i 0, i) := by
    rw [← hw1, ← hw2]
  have hsne : (second hist).2 ≠ i := by
    rw [← hw2]
    exact (winner_idx_ne_second_idx hist h2).symm
  have hs1 : (second hist).1 = hist.getD j 0 := by
    have hle1 : hist.getD j 0 ≤ (second hist).1 := by
      apply second_max hist h2 j hjlen
      rw [hw2]
      omega
    have hle2 : (second hist).1 ≤ hist.getD j 0 := by
      rcases Nat.lt_or_ge (second hist).2 j with hlt | hge
      · have := hmin (second hist).2 hlt hsne
        rw [hs.2]
        omega
      · have := htop (second hist).2 (by omega)
        rw [hs.2, htie]
        omega
    omega
  have hs2 : (second hist).2 = j := by
    by_contra hne
    rcases Nat.lt_or_ge (second hist).2 j with hlt | hge
    · have := hmin (second hist).2 hlt hsne
      rw [← hs1, hs.2] at this
      omega
    · have hlt2 : j < (second hist).2 := by omega
      apply second_tie_min hist h2 j hlt2 _ (by omega)
      rw [hw2]
      omega
  constructor
  · exact hwfin
  · rw [← hs1, ← hs2]

set_option maxRecDepth 40000 in
/-- C4 witness: bins 0 and 2 tie at top count 7; bin 0 wins and bin 2
is the runner-up. -/
theorem C4_tie_break_witness :
    (([7, 1, 7] ++ List.replicate 253 0 : List Nat).length = 256 ∧
      ([7, 1, 7] ++ List.replicate 253 0 : List Nat).getD 2 0 =
        ([7, 1, 7] ++ List.replicate 253 0 : List Nat).getD 0 0 ∧
      (∀ k, k < 256 → ([7, 1, 7] ++ List.replicate 253 0 : List Nat).getD k 0 ≤
        ([7, 1, 7] ++ List.replicate 253 0 : List Nat).getD 0 0) ∧
      (∀ k, k < 2 → k ≠ 0 → ([7, 1, 7] ++ List.replicate 253 0 : List Nat).getD k 0 <
        ([7, 1, 7] ++ List.replicate 253 0 : List Nat).getD 2 0)) ∧
    winner ([7, 1, 7] ++ List.replicate 253 0) =
      (([7, 1, 7] ++ List.replicate 253 0 : List Nat).getD 0 0, 0) ∧
    second ([7, 1, 7] ++ List.replicate 253 0) =
      (([7, 1, 7] ++ List.replicate 253 0 : List Nat).getD 2 0, 2) :=
  ⟨⟨by decide, by decide, by decide, by decide⟩,
    C4_tie_break ([7, 1, 7] ++ List.replicate 253 0) (by decide) 0 2 (by decide) (by decide)
      (by decide) (by decide) (by decide)⟩

/-- C5: for a 256-bin histogram with positive total count and a
gradient of length at least 2, the ratio `winner/(winner+second)` lies
in (0, 1], the glyph index `round(ratio * (len(gradient)-1))` is its
own clamp into the valid index range (so clamping is the identity and
indexing never goes out of bounds), and the reducer returns exactly the
glyph at that index together with the packed color byte. -/
theorem C5_ratio_and_index (hist : List Nat) (mzx_pal : List (List Nat)) (chars : List Int)
    (h256 : hist.length = 256) (hsum : 0 < hist.sum) (hlen : 2 ≤ chars.length) :
    0 < ((winner hist).1 : ℚ) / (((winner hist).1 : ℚ) + ((second hist).1 : ℚ)) ∧
    ((winner hist).1 : ℚ) / (((winner hist).1 : ℚ) + ((second hist).1 : ℚ)) ≤ 1 ∧
    pyRound ((((winner hist).1 : ℚ) / (((winner hist).1 : ℚ) + ((second hist).1 : ℚ))) *
        ((chars.length : ℚ) - 1)) =
      max 0 (min (pyRound ((((winner hist).1 : ℚ) /
        (((winner hist).1 : ℚ) + ((second hist).1 : ℚ))) * ((chars.length : ℚ) - 1)))
        ((chars.length : ℤ) - 1)) ∧
    (pyRound ((((winner hist).1 : ℚ) / (((winner hist).1 : ℚ) + ((second hist).1 : ℚ))) *
        ((chars.length : ℚ) - 1))).toNat < chars.length ∧
    rank_histogram_to_col_and_char hist mzx_pal chars =
      some (chars.getD (pyRound ((((winner hist).1 : ℚ) /
              (((winner hist).1 : ℚ) + ((second hist).1 : ℚ))) *
              ((chars.length : ℚ) - 1))).toNat 0,
            (winner hist).2 % 16 + (second hist).2 % 16 * 16) := by
  have h2 : 2 ≤ hist.length := by omega
  have hwpos := winner_pos_of_sum_pos hist h2 hsum
  obtain ⟨hidx0, hidx1, hres⟩ := rank_result hist mzx_pal chars h2 hwpos hlen
  refine ⟨ratio_pos hist hwpos, ratio_le_one hist hwpos, by omega, by omega, hres⟩

set_option maxRecDepth 40000 in
/-- C5 witness: the all-ones histogram (every bin count 1) with the
default gradient. -/
theorem C5_ratio_and_index_witness :
    ((List.replicate 256 1 : List Nat).length = 256 ∧
      0 < (List.replicate 256 1 : List Nat).sum ∧
      2 ≤ ([176, 177, 178, 219] : List Int).length) ∧
    rank_histogram_to_col_and_char (List.replicate 256 1) DEFAULT_PALETTE [176, 177, 178, 219] =
      some (([176, 177, 178, 219] : List Int).getD
        (pyRound ((((winner (List.replicate 256 1)).1 : ℚ) /
          (((winner (List.replicate 256 1)).1 : ℚ) + ((second (List.replicate 256 1)).1 : ℚ))) *
          ((([176, 177, 178, 219] : List Int).length : ℚ) - 1))).toNat 0,
        (winner (List.replicate 256 1)).2 % 16 + (second (List.replicate 256 1)).2 % 16 * 16) :=
  ⟨⟨by decide, by decide, by decide⟩,
    (C5_ratio_and_index (List.replicate 256 1) DEFAULT_PALETTE [176, 177, 178, 219]
      (by decide) (by decide) (by decide)).2.2.2.2⟩

/-- C6: for a histogram concentrated in a single bin (that bin's count
positive, all other bins zero) and any gradient with at least 2
glyphs, the ratio is exactly 1 and the reducer selects the last glyph
of the gradient. -/
theorem C6_uniform_cell (hist : List Nat) (mzx_pal : List (List Nat)) (chars : List Int)
    (b : Nat) (h256 : hist.length = 256) (hb : b < 256) (hpos : 0 < hist.getD b 0)
    (hz : ∀ k, k < 256 → k ≠ b → hist.getD k 0 = 0) (hlen : 2 ≤ chars.length) :
    ((winner hist).1 : ℚ) / (((winner hist).1 : ℚ) + ((second hist).1 : ℚ)) = 1 ∧
    ∃ col, rank_histogram_to_col_and_char hist mzx_pal chars =
      some (chars.getD (chars.length - 1) 0, col) := by
  have h2 : 2 ≤ hist.length := by omega
  have hw := winner_spec hist h2
  have hs := second_spec hist h2
  have hw2 : (winner hist).2 = b := by
    by_contra hne
    have h0 : hist.getD (winner hist).2 0 = 0 := hz _ (by omega) hne
    have hble : hist.getD b 0 ≤ (winner hist).1 := winner_max hist h2 b (by omega)
    have := hw.2
    omega
  have hwpos : 0 < (winner hist).1 := by
    rw [hw.2, hw2]
    exact hpos
  have hs0 : (second hist).1 = 0 := by
    have hsne : (second hist).2 ≠ b := by
      rw [← hw2]
      exact (winner_idx_ne_second_idx hist h2).symm
    rw [hs.2]
    exact hz _ (by omega) hsne
  have hratio : ((winner hist).1 : ℚ) / (((winner hist).1 : ℚ) + ((second hist).1 : ℚ)) = 1 := by
    rw [hs0]
    push_cast
    rw [add_zero]
    apply div_self
    have : (0 : ℚ) < ((winner hist).1 : ℚ) := by exact_mod_cast hwpos
    exact this.ne'
  obtain ⟨hidx0, hidx1, hres⟩ := rank_result hist mzx_pal chars h2 hwpos hlen
  rw [hratio, one_mul] at hres
  have hcast : ((chars.length : ℚ) - 1) = (((chars.length : ℤ) - 1 : ℤ) : ℚ) := by
    push_cast
    ring
  rw [hcast, pyRound_intCast] at hres
  have htn : ((chars.length : ℤ) - 1).toNat = chars.length - 1 := by omega
  rw [htn] at hres
  exact ⟨hratio, _, hres⟩

set_option maxRecDepth 40000 in
/-- C6 witness: all 5 counts in bin 1, default gradient: ratio 1 and
glyph 219 (the last). -/
theorem C6_uniform_cell_witness :
    (([0, 5] ++ List.replicate 254 0 : List Nat).length = 256 ∧
      0 < ([0, 5] ++ List.replicate 254 0 : List Nat).getD 1 0 ∧
      (∀ k, k < 256 → k ≠ 1 → ([0, 5] ++ List.replicate 254 0 : List Nat).getD k 0 = 0)) ∧
    ∃ col, rank_histogram_to_col_and_char ([0, 5] ++ List.replicate 254 0) DEFAULT_PALETTE
        [176, 177, 178, 219] =
      some (([176, 177, 178, 219] : List Int).getD (([176, 177, 178, 219] : List Int).length - 1) 0,
        col) :=
  ⟨⟨by decide, by decide, by decide⟩,
    (C6_uniform_cell ([0, 5] ++ List.replicate 254 0) DEFAULT_PALETTE [176, 177, 178, 219] 1
      (by decide) (by decide) (by decide) (by decide) (by decide)).2⟩

theorem pyRound_three_halves : pyRound ((3 : ℚ) / 2) = 2 := by
  have hfl : ⌊(3 / 2 : ℚ)⌋ = 1 := by
    rw [Int.floor_eq_iff]
    norm_num
  unfold pyRound
  rw [hfl]
  norm_num

/-- C10: the winner's count is always at least the second's, so the
ratio lies in [1/2, 1] (tighter than the spec's (0, 1]); the selected
index is at least `round((len(gradient)-1)/2)`; and with the default
gradient 176,177,178,219 the reducer can only emit glyph 178 or glyph
219 — glyphs 176 and 177 are never produced. -/
theorem C10_ratio_lower_bound (hist : List Nat) (mzx_pal : List (List Nat)) (chars : List Int)
    (h256 : hist.length = 256) (hsum : 0 < hist.sum) (hlen : 2 ≤ chars.length) :
    (second hist).1 ≤ (winner hist).1 ∧
    1 / 2 ≤ ((winner hist).1 : ℚ) / (((winner hist).1 : ℚ) + ((second hist).1 : ℚ)) ∧
    ((winner hist).1 : ℚ) / (((winner hist).1 : ℚ) + ((second hist).1 : ℚ)) ≤ 1 ∧
    pyRound (((chars.length : ℚ) - 1) / 2) ≤
      pyRound ((((winner hist).1 : ℚ) / (((winner hist).1 : ℚ) + ((second hist).1 : ℚ))) *
        ((chars.length : ℚ) - 1)) ∧
    (chars = [176, 177, 178, 219] →
      ∃ col, (rank_histogram_to_col_and_char hist mzx_pal chars = some (178, col) ∨
              rank_histogram_to_col_and_char hist mzx_pal chars = some (219, col))) := by
  have h2 : 2 ≤ hist.length := by omega
  have hwpos := winner_pos_of_sum_pos hist h2 hsum
  have hsle : (second hist).1 ≤ (winner hist).1 := second_le_winner hist h2
  have hwq : (0 : ℚ) < ((winner hist).1 : ℚ) := by exact_mod_cast hwpos
  have hsq : (0 : ℚ) ≤ ((second hist).1 : ℚ) := by positivity
  have hswq : ((second hist).1 : ℚ) ≤ ((winner hist).1 : ℚ) := by exact_mod_cast hsle
  have hden : (0 : ℚ) < ((winner hist).1 : ℚ) + ((second hist).1 : ℚ) := by linarith
  have hhalf : 1 / 2 ≤ ((winner hist).1 : ℚ) /
      (((winner hist).1 : ℚ) + ((second hist).1 : ℚ)) := by
    rw [le_div_iff₀ hden]
    linarith
  have hlq : (0 : ℚ) ≤ (chars.length : ℚ) - 1 := by
    have : (2 : ℚ) ≤ (chars.length : ℚ) := by exact_mod_cast hlen
    linarith
  have hmono : pyRound (((chars.length : ℚ) - 1) / 2) ≤
      pyRound ((((winner hist).1 : ℚ) / (((winner hist).1 : ℚ) + ((second hist).1 : ℚ))) *
        ((chars.length : ℚ) - 1)) := by
    apply pyRound_mono
    have heq : ((chars.length : ℚ) - 1) / 2 = 1 / 2 * ((chars.length : ℚ) - 1) := by ring
    rw [heq]
    exact mul_le_mul_of_nonneg_right hhalf hlq
  refine ⟨hsle, hhalf, ratio_le_one hist hwpos, hmono, ?_⟩
  intro hchars
  subst hchars
  obtain ⟨hidx0, hidx1, hres⟩ := rank_result hist mzx_pal [176, 177, 178, 219] h2 hwpos (by decide)
  have h3 : ((([176, 177, 178, 219] : List Int).length : ℚ) - 1) = 3 := by norm_num
  rw [h3] at hres hmono
  have h32 : ((3 : ℚ)) / 2 = (3 : ℚ) / 2 := rfl
  rw [show (3 : ℚ) / 2 = (3 : ℚ) / 2 from rfl] at hmono
  have hp32 : pyRound ((3 : ℚ) / 2) = 2 := pyRound_three_halves
  rw [hp32] at hmono
  have hle3 : pyRound ((((winner hist).1 : ℚ) /
      (((winner hist).1 : ℚ) + ((second hist).1 : ℚ))) * 3) ≤ 3 := by
    have := hidx1
    rw [h3] at this
    norm_num at this
    exact this
  have hcases : (pyRound ((((winner hist).1 : ℚ) /
      (((winner hist).1 : ℚ) + ((second hist).1 : ℚ))) * 3)).toNat = 2 ∨
      (pyRound ((((winner hist).1 : ℚ) /
      (((winner hist).1 : ℚ) + ((second hist).1 : ℚ))) * 3)).toNat = 3 := by
    omega
  refine ⟨(winner hist).2 % 16 + (second hist).2 % 16 * 16, ?_⟩
  rcases hcases with hc2 | hc3
  · left
    rw [hres, hc2]
    rfl
  · right
    rw [hres, hc3]
    rfl

set_option maxRecDepth 40000 in
/-- C10 witness: the all-ones histogram with the default gradient: the
reducer's glyph is 178 or 219. -/
theorem C10_ratio_lower_bound_witness :
    ((List.replicate 256 1 : List Nat).length = 256 ∧
      0 < (List.replicate 256 1 : List Nat).sum) ∧
    ∃ col,
      (rank_histogram_to_col_and_char (List.replicate 256 1) DEFAULT_PALETTE
          [176, 177, 178, 219] = some (178, col) ∨
       rank_histogram_to_col_and_char (List.replicate 256 1) DEFAULT_PALETTE
          [176, 177, 178, 219] = some (219, col)) :=
  ⟨⟨by decide, by decide⟩,
    (C10_ratio_lower_bound (List.replicate 256 1) DEFAULT_PALETTE [176, 177, 178, 219]
      (by decide) (by decide) (by decide)).2.2.2.2 rfl⟩

theorem mad_science_degenerate (w h cw ch : Nat) (newim : Nat → Nat → Nat)
    (mzx_pal : List (List Nat)) (chars : List Int)
    (hw : 0 < w) (hh : 0 < h) (hcell : cw = 0 ∨ ch = 0) :
    mad_science w h cw ch newim mzx_pal chars = none := by
  have hpix : cellPixels newim (0 * cw) (0 * ch) (0 * cw + cw) (0 * ch + ch) = [] := by
    rcases hcell with rfl | rfl <;> simp [cellPixels]
  have hz0 := histogram_all_zero_of_nil _ hpix
  have h2h : 2 ≤ (histogram (cellPixels newim (0 * cw) (0 * ch) (0 * cw + cw) (0 * ch + ch))).length := by
    rw [histogram_length]
    omega
  have hrank := rank_zero _ mzx_pal chars h2h hz0
  obtain ⟨w', rfl⟩ : ∃ w', w = w' + 1 := ⟨w - 1, by omega⟩
  obtain ⟨h', rfl⟩ : ∃ h', h = h' + 1 := ⟨h - 1, by omega⟩
  rw [mad_science]
  simp only [List.range_succ_eq_map, List.map_cons, List.flatten_cons, List.cons_append]
  simp only [mapMO]
  rw [hrank]

set_option maxRecDepth 10000 in
/-- C2 (counterexample): no rejection happens before reduction.  With a
zero-width cell the cropped block is empty, its histogram is all-zero,
and the reducer is still invoked on it: the division's denominator
`winner.count + second.count` is 0 and the reduction fails there
(Python `ZeroDivisionError`, modelled `none`), aborting the layer
build — contradicting the claim that the configuration is rejected
before any cell reduction begins and that the division is never reached
with an all-zero histogram. -/
theorem C2_counterexample :
    cellPixels (fun _ _ => 0) 0 0 0 14 = [] ∧
    (∀ x ∈ histogram (cellPixels (fun _ _ => 0) 0 0 0 14), x = 0) ∧
    (winner (histogram (cellPixels (fun _ _ => 0) 0 0 0 14))).1 +
      (second (histogram (cellPixels (fun _ _ => 0) 0 0 0 14))).1 = 0 ∧
    rank_histogram_to_col_and_char (histogram (cellPixels (fun _ _ => 0) 0 0 0 14))
      DEFAULT_PALETTE [176, 177, 178, 219] = none ∧
    mad_science 1 1 0 14 (fun _ _ => 0) DEFAULT_PALETTE [176, 177, 178, 219] = none := by
  have hpix : cellPixels (fun _ _ => 0) 0 0 0 14 = [] := by decide
  have hz0 := histogram_all_zero_of_nil (cellPixels (fun _ _ => 0) 0 0 0 14) hpix
  have h2h : 2 ≤ (histogram (cellPixels (fun _ _ => 0) 0 0 0 14)).length := by
    rw [histogram_length]
    omega
  have hws := winner_second_zero _ h2h hz0
  have hrank := rank_zero _ DEFAULT_PALETTE [176, 177, 178, 219] h2h hz0
  exact ⟨hpix, hz0, by omega, hrank,
    mad_science_degenerate 1 1 0 14 (fun _ _ => 0) DEFAULT_PALETTE [176, 177, 178, 219]
      (by omega) (by omega) (Or.inl rfl)⟩

/-- C2 (amended): the program has no `DegenerateCellError` and performs
no validation of the cell size.  With a zero-area cell (cell width or
height 0) every cropped cell is empty, its 256-bin histogram is
all-zero, and the reduction's division
`winner.count / (winner.count + second.count)` IS reached with that
all-zero histogram: it fails with `ZeroDivisionError` (modelled `none`)
and the run aborts there. -/
theorem C2_degenerate_cell (w h cw ch : Nat) (newim : Nat → Nat → Nat)
    (mzx_pal : List (List Nat)) (chars : List Int)
    (hw : 0 < w) (hh : 0 < h) (hcell : cw = 0 ∨ ch = 0) :
    (∀ x ∈ histogram (cellPixels newim (0 * cw) (0 * ch) (0 * cw + cw) (0 * ch + ch)), x = 0) ∧
    rank_histogram_to_col_and_char
      (histogram (cellPixels newim (0 * cw) (0 * ch) (0 * cw + cw) (0 * ch + ch)))
      mzx_pal chars = none ∧
    mad_science w h cw ch newim mzx_pal chars = none := by
  have hpix : cellPixels newim (0 * cw) (0 * ch) (0 * cw + cw) (0 * ch + ch) = [] := by
    rcases hcell with rfl | rfl <;> simp [cellPixels]
  have hz0 := histogram_all_zero_of_nil _ hpix
  have h2h : 2 ≤ (histogram (cellPixels newim (0 * cw) (0 * ch) (0 * cw + cw) (0 * ch + ch))).length := by
    rw [histogram_length]
    omega
  exact ⟨hz0, rank_zero _ mzx_pal chars h2h hz0,
    mad_science_degenerate w h cw ch newim mzx_pal chars hw hh hcell⟩

set_option maxRecDepth 10000 in
/-- C2 witness: the 1×1 grid with cell width 0. -/
theorem C2_degenerate_cell_witness :
    ((0 : Nat) < 1 ∧ ((0 : Nat) = 0 ∨ (14 : Nat) = 0)) ∧
    mad_science 1 1 0 14 (fun x y => x + y) DEFAULT_PALETTE [176, 177, 178, 219] = none :=
  ⟨⟨by omega, Or.inl rfl⟩,
    (C2_degenerate_cell 1 1 0 14 (fun x y => x + y) DEFAULT_PALETTE [176, 177, 178, 219]
      (by omega) (by omega) (Or.inl rfl)).2.2⟩
